import Mathlib

/-!
Shallow embedding of the two samplers of the `llm-samplers` repository
(`src/samplers/top_p.rs` and `src/samplers/tail_free.rs`) together with the
`Logits` buffer they operate on.  Logit/probability scalars (the crate's
generic `L`, instantiated at `f32`) are idealised as exact rationals; the one
place where IEEE special values are reachable — the division of the tail-free
second-derivative weights by their possibly-zero sum — is modelled by the
three-valued type `FVal` (finite / infinite / NaN) with IEEE comparison
semantics, so that the zero-variance behaviour of the code is captured
faithfully.  The softmax recomputation uses an arbitrary function
`E : ℚ → ℚ` standing for the (rounded, transcendental) `exp`.
-/

/-- The crate's `SamplerError` (only the variant the two samplers build). -/
inductive SamplerError where
  | InternalError (msg : String)
deriving DecidableEq

/-- Message carried by a `SamplerError`. -/
def SamplerError.msg : SamplerError → String
  | .InternalError m => m

/-- One entry of the logits buffer: token id, raw score, derived probability. -/
structure LogitEntry where
  token_id : ℕ
  logit : ℚ
  prob : ℚ
deriving DecidableEq

/-- Modelled from the spec: the `Logits` buffer (named `LogitsBuffer` in the
spec, §3) is an ordered sequence of entries plus a boolean `softmax_valid`
flag tracking whether the `prob` fields are current.  The type itself is not
under `src/`; only the two samplers are. -/
structure Logits where
  entries : List LogitEntry
  softmax_valid : Bool
deriving DecidableEq

/-- Modelled from the spec (§4.1): `truncate(n)` keeps only the first `n`
entries and "does not itself touch `softmax_valid`". -/
def Logits.truncate (lg : Logits) (n : ℕ) : Logits :=
  { lg with entries := lg.entries.take n }

/-- The buffer's `set_softmax` mutator (used by `top_p.rs`): sets the flag. -/
def Logits.set_softmax (lg : Logits) (b : Bool) : Logits :=
  { lg with softmax_valid := b }

/-- Modelled from the spec (§4.1): `ensure_softmax` recomputes the `prob`
fields as `E (logit - max_logit) / Σ E (logit_i - max_logit)` when the flag is
unset, then sets the flag; it fails only on an empty entry set.  `E` stands
for the exponential. -/
def Logits.ensure_softmax (E : ℚ → ℚ) (lg : Logits) : Except SamplerError Logits :=
  if lg.softmax_valid then .ok lg
  else
    match lg.entries with
    | [] => .error (.InternalError "softmax called on empty logits")
    | e0 :: rest =>
      let m := (rest.map LogitEntry.logit).foldl max e0.logit
      let denom := ((e0 :: rest).map (fun x => E (x.logit - m))).sum
      .ok { entries := (e0 :: rest).map (fun x => { x with prob := E (x.logit - m) / denom }),
            softmax_valid := true }

/-- An IEEE-style scalar value: finite rational, signed infinity, or NaN.
Only the tail-free weight normalisation can produce non-finite values. -/
inductive FVal where
  | nan : FVal
  | pinf : FVal
  | ninf : FVal
  | fin (q : ℚ) : FVal
deriving DecidableEq

/-- IEEE addition on `FVal` (NaN propagates; `+∞ + -∞ = NaN`). -/
def FVal.add : FVal → FVal → FVal
  | .nan, _ => .nan
  | _, .nan => .nan
  | .pinf, .ninf => .nan
  | .ninf, .pinf => .nan
  | .pinf, _ => .pinf
  | _, .pinf => .pinf
  | .ninf, _ => .ninf
  | _, .ninf => .ninf
  | .fin a, .fin b => .fin (a + b)

/-- IEEE comparison `x > z` against a finite rational: false whenever `x` is
NaN. -/
def FVal.gtq : FVal → ℚ → Bool
  | .nan, _ => false
  | .pinf, _ => true
  | .ninf, _ => false
  | .fin a, z => decide (z < a)

/-- IEEE division of finite rationals: `0/0` is NaN, `x/0` is a signed
infinity, otherwise exact. -/
def fdiv (x d : ℚ) : FVal :=
  if d = 0 then
    if x = 0 then FVal.nan else if 0 < x then FVal.pinf else FVal.ninf
  else FVal.fin (x / d)

/-- Consecutive differences `a_i - a_{i+1}`: the `fderivs` iterator of
`tail_free.rs` (`l.prob - logits[idx + 1].prob` over the first `len - 1`
entries). -/
def pairDiffs : List ℚ → List ℚ
  | a :: b :: rest => (a - b) :: pairDiffs (b :: rest)
  | _ => []

/-- Absolute consecutive differences `|a_i - a_{i+1}|` (the second-derivative
sequence computed from the first differences). -/
def pairAbsDiffs : List ℚ → List ℚ
  | a :: b :: rest => |a - b| :: pairAbsDiffs (b :: rest)
  | _ => []

/-- The `while let Some(prob) = fderivs.next()` loop of `tail_free.rs`:
consumes the first-difference list, peeking at the next element (an
`InternalError` when the peek fails), pushing `|d - d2|` and accumulating the
sum, breaking once `want` elements have been pushed.  Returns the pushed
list together with the accumulated sum. -/
def sderivsLoop (want : ℕ) (acc : List ℚ) (ssum : ℚ) :
    List ℚ → Except SamplerError (List ℚ × ℚ)
  | [] => .ok (acc.reverse, ssum)
  | d :: rest =>
    match rest with
    | [] => .error (.InternalError "Impossible: missing next deriv item?")
    | d2 :: _ =>
      if acc.length + 1 = want then .ok ((|d - d2| :: acc).reverse, ssum + |d - d2|)
      else sderivsLoop want (|d - d2| :: acc) (ssum + |d - d2|) rest

/-- The `try_fold` of `top_p.rs`: walks the probability list accumulating
`cum_sum`, breaking with `idx + 1` at the first index where
`cum_sum >= p && idx + 1 >= min_keep`; `none` models `Continue`. -/
def topPScan (p : ℚ) (mk : ℕ) (cum : ℚ) (idx : ℕ) : List ℚ → Option ℕ
  | [] => none
  | q :: rest =>
    if p ≤ cum + q ∧ mk ≤ idx + 1 then some (idx + 1)
    else topPScan p mk (cum + q) (idx + 1) rest

/-- The `try_fold` of `tail_free.rs`: walks the normalised second-derivative
weights accumulating `cum_sum`, breaking with `idx` at the first index where
`cum_sum > z && idx >= min_keep`. -/
def tfScan (z : ℚ) (mk : ℕ) (cum : FVal) (idx : ℕ) : List FVal → Option ℕ
  | [] => none
  | w :: rest =>
    if (cum.add w).gtq z ∧ mk ≤ idx then some idx
    else tfScan z mk (cum.add w) (idx + 1) rest

/-- `SampleTopP::sample` (`src/samplers/top_p.rs`): ensure softmax, fold to
find `last_idx` (defaulting to the length), and truncate — flipping the
softmax flag — exactly when `last_idx != logits.len()`.  The error branch
carries the state of the buffer at the moment of the error. -/
def sampleTopP (E : ℚ → ℚ) (p : ℚ) (min_keep : ℕ) (lg : Logits) :
    Except (SamplerError × Logits) Logits :=
  match lg.ensure_softmax E with
  | .error e =>
      .error (.InternalError ("Failed to ensure softmax before sampling: " ++ e.msg), lg)
  | .ok lg1 =>
      let last_idx :=
        (topPScan p min_keep 0 0 (lg1.entries.map LogitEntry.prob)).getD lg1.entries.length
      if last_idx ≠ lg1.entries.length then .ok ((lg1.truncate last_idx).set_softmax false)
      else .ok lg1

/-- `SampleTailFree::sample` (`src/samplers/tail_free.rs`): early-return when
`z >= 1` or fewer than 2 entries; otherwise ensure softmax, run the
second-derivative loop (`want = len - 2`), divide each pushed value by the
accumulated sum (IEEE semantics via `fdiv`), fold to find `last_idx`
(defaulting to the length) and truncate unconditionally, never touching the
softmax flag. -/
def sampleTailFree (E : ℚ → ℚ) (z : ℚ) (min_keep : ℕ) (lg : Logits) :
    Except (SamplerError × Logits) Logits :=
  if 1 ≤ z ∨ lg.entries.length < 2 then .ok lg
  else
    match lg.ensure_softmax E with
    | .error e => .error (e, lg)
    | .ok lg1 =>
      match sderivsLoop (lg1.entries.length - 2) [] 0
          (pairDiffs (lg1.entries.map LogitEntry.prob)) with
      | .error e => .error (e, lg1)
      | .ok sd =>
        let ws := sd.1.map (fun s => fdiv s sd.2)
        let last_idx := (tfScan z min_keep (FVal.fin 0) 0 ws).getD lg1.entries.length
        .ok (lg1.truncate last_idx)

/-- Probability list of a buffer. -/
def probsOf (lg : Logits) : List ℚ := lg.entries.map LogitEntry.prob

/-- Cumulative sum of the first `j + 1` elements of a list. -/
def cumAt (qs : List ℚ) (j : ℕ) : ℚ := ((qs.take (j + 1)).sum)

/-- The spec's TopP stopping predicate at index `j`:
`cum_sum ≥ p` and `j + 1 ≥ min_keep`. -/
def stopP (p : ℚ) (mk : ℕ) (qs : List ℚ) (j : ℕ) : Prop :=
  p ≤ cumAt qs j ∧ mk ≤ j + 1

/-- The second-derivative sequence of a buffer's probability curve. -/
def sderivsOf (lg : Logits) : List ℚ := pairAbsDiffs (pairDiffs (probsOf lg))

/-- The normalised tail-free weights of a buffer (only meaningful when the
second-derivative sum is nonzero). -/
def tfW (lg : Logits) : List ℚ :=
  (sderivsOf lg).map (fun s => s / (sderivsOf lg).sum)

/-- The spec's TailFree stopping predicate at index `j`:
`cum_sum > z` and `j ≥ min_keep`. -/
def stopTF (z : ℚ) (mk : ℕ) (ws : List ℚ) (j : ℕ) : Prop :=
  z < cumAt ws j ∧ mk ≤ j

/-- Identity-relevant projection of an entry (token id and raw score); the
`prob` field is a cache that softmax recomputation rewrites. -/
def projEntry (e : LogitEntry) : ℕ × ℚ := (e.token_id, e.logit)

/-- The entry sequence of a buffer up to the probability cache. -/
def projEntries (lg : Logits) : List (ℕ × ℚ) := lg.entries.map projEntry

/-! ### Basic lemmas about the buffer operations -/

theorem ensure_softmax_of_valid (E : ℚ → ℚ) (lg : Logits) (h : lg.softmax_valid = true) :
    Logits.ensure_softmax E lg = .ok lg := by
  simp [Logits.ensure_softmax, h]

theorem ensure_softmax_ok_spec (E : ℚ → ℚ) (lg lg1 : Logits)
    (h : Logits.ensure_softmax E lg = .ok lg1) :
    lg1.softmax_valid = true ∧ lg1.entries.length = lg.entries.length ∧
      projEntries lg1 = projEntries lg := by
  by_cases hv : lg.softmax_valid
  · rw [ensure_softmax_of_valid E lg hv] at h
    cases h
    exact ⟨hv, rfl, rfl⟩
  · rw [Logits.ensure_softmax, if_neg hv] at h
    cases he : lg.entries with
    | nil => rw [he] at h; cases h
    | cons e0 rest =>
      rw [he] at h
      cases h
      refine ⟨rfl, by simp [he], ?_⟩
      simp only [projEntries, he, List.map_map]
      rfl

theorem truncate_entries (lg : Logits) (n : ℕ) :
    (lg.truncate n).entries = lg.entries.take n := rfl

theorem truncate_length (lg : Logits) (n : ℕ) :
    (lg.truncate n).entries.length = min n lg.entries.length := by
  simp [Logits.truncate]

theorem truncate_self (lg : Logits) (n : ℕ) (h : lg.entries.length ≤ n) :
    lg.truncate n = lg := by
  cases lg with
  | mk es fl => simp [Logits.truncate, List.take_of_length_le h]

/-! ### Lengths of the difference sequences -/

theorem pairDiffs_length : ∀ qs : List ℚ, (pairDiffs qs).length = qs.length - 1 := by
  intro qs
  induction qs with
  | nil => rfl
  | cons a rest ih =>
    cases rest with
    | nil => rfl
    | cons b r2 =>
      rw [pairDiffs]
      simp only [List.length_cons] at ih ⊢
      omega

theorem pairAbsDiffs_length : ∀ qs : List ℚ, (pairAbsDiffs qs).length = qs.length - 1 := by
  intro qs
  induction qs with
  | nil => rfl
  | cons a rest ih =>
    cases rest with
    | nil => rfl
    | cons b r2 =>
      rw [pairAbsDiffs]
      simp only [List.length_cons] at ih ⊢
      omega

/-! ### Cumulative sums -/

theorem cumAt_cons_zero (q : ℚ) (rest : List ℚ) : cumAt (q :: rest) 0 = q := by
  simp [cumAt]

theorem cumAt_cons_succ (q : ℚ) (rest : List ℚ) (j : ℕ) :
    cumAt (q :: rest) (j + 1) = q + cumAt rest j := by
  simp [cumAt, List.take_succ_cons]

/-! ### The second-derivative loop -/

theorem sderivsLoop_ok (ds : List ℚ) :
    ∀ (acc : List ℚ) (ssum : ℚ) (want : ℕ),
      2 ≤ ds.length → want = acc.length + ds.length - 1 →
      sderivsLoop want acc ssum ds =
        .ok (acc.reverse ++ pairAbsDiffs ds, ssum + (pairAbsDiffs ds).sum) := by
  induction ds with
  | nil => intro acc ssum want h _; simp at h
  | cons d tail ih =>
    intro acc ssum want h hw
    cases tail with
    | nil => simp at h
    | cons d2 rest =>
      cases rest with
      | nil =>
        have hwant : acc.length + 1 = want := by
          simp only [List.length_cons, List.length_nil] at hw; omega
        rw [sderivsLoop, if_pos hwant]
        simp [pairAbsDiffs]
      | cons r rs =>
        have hwant : ¬ (acc.length + 1 = want) := by
          simp only [List.length_cons] at hw; omega
        rw [sderivsLoop, if_neg hwant]
        rw [ih (|d - d2| :: acc) (ssum + |d - d2|) want (by simp)
          (by simp only [List.length_cons] at hw ⊢; omega)]
        simp only [pairAbsDiffs, List.reverse_cons, List.append_assoc,
          List.cons_append, List.nil_append, List.sum_cons]
        rw [add_assoc]

theorem sderivsLoop_singleton (want : ℕ) (acc : List ℚ) (ssum : ℚ) (d : ℚ) :
    sderivsLoop want acc ssum [d] =
      .error (.InternalError "Impossible: missing next deriv item?") := rfl

/-! ### The TopP fold -/

theorem topPScan_some (p : ℚ) (mk : ℕ) :
    ∀ (qs : List ℚ) (cum : ℚ) (idx r : ℕ),
      topPScan p mk cum idx qs = some r →
      ∃ i, i < qs.length ∧ r = idx + i + 1 ∧
        (p ≤ cum + cumAt qs i ∧ mk ≤ idx + i + 1) ∧
        ∀ j, j < i → ¬ (p ≤ cum + cumAt qs j ∧ mk ≤ idx + j + 1) := by
  intro qs
  induction qs with
  | nil => intro cum idx r h; simp [topPScan] at h
  | cons q rest ih =>
    intro cum idx r h
    rw [topPScan] at h
    by_cases hc : p ≤ cum + q ∧ mk ≤ idx + 1
    · rw [if_pos hc] at h
      cases h
      refine ⟨0, by simp, rfl, ⟨by rw [cumAt_cons_zero]; exact hc.1, hc.2⟩,
        fun j hj => absurd hj (Nat.not_lt_zero j)⟩
    · rw [if_neg hc] at h
      obtain ⟨i, hi, hr, hstop, hmin⟩ := ih (cum + q) (idx + 1) r h
      refine ⟨i + 1, by simpa using Nat.succ_lt_succ hi, by omega, ?_, ?_⟩
      · refine ⟨by rw [cumAt_cons_succ, ← add_assoc]; exact hstop.1, ?_⟩
        have := hstop.2; omega
      · intro j hj
        cases j with
        | zero =>
          intro hcon
          exact hc ⟨by rw [cumAt_cons_zero] at hcon; exact hcon.1, hcon.2⟩
        | succ j2 =>
          intro hcon
          have h2 := hcon.2
          refine hmin j2 (by omega) ⟨?_, by omega⟩
          rw [cumAt_cons_succ, ← add_assoc] at hcon
          exact hcon.1

theorem topPScan_none (p : ℚ) (mk : ℕ) :
    ∀ (qs : List ℚ) (cum : ℚ) (idx : ℕ),
      topPScan p mk cum idx qs = none →
      ∀ j, j < qs.length → ¬ (p ≤ cum + cumAt qs j ∧ mk ≤ idx + j + 1) := by
  intro qs
  induction qs with
  | nil => intro cum idx _ j hj; simp at hj
  | cons q rest ih =>
    intro cum idx h j hj
    rw [topPScan] at h
    by_cases hc : p ≤ cum + q ∧ mk ≤ idx + 1
    · rw [if_pos hc] at h; cases h
    · rw [if_neg hc] at h
      cases j with
      | zero =>
        intro hcon
        exact hc ⟨by rw [cumAt_cons_zero] at hcon; exact hcon.1, hcon.2⟩
      | succ j2 =>
        intro hcon
        have h2 := hcon.2
        refine ih (cum + q) (idx + 1) h j2 (by simpa using hj) ⟨?_, by omega⟩
        rw [cumAt_cons_succ, ← add_assoc] at hcon
        exact hcon.1

/-! ### The TailFree fold -/

theorem FVal.nan_add (w : FVal) : FVal.add .nan w = .nan := by
  cases w <;> rfl

theorem FVal.nan_gtq (z : ℚ) : FVal.gtq .nan z = false := rfl

theorem tfScan_nan (z : ℚ) (mk : ℕ) :
    ∀ (ws : List FVal) (idx : ℕ), tfScan z mk FVal.nan idx ws = none := by
  intro ws
  induction ws with
  | nil => intro idx; rfl
  | cons w rest ih =>
    intro idx
    rw [tfScan, FVal.nan_add, FVal.nan_gtq]
    simp only [Bool.false_eq_true, false_and, if_false]
    exact ih (idx + 1)

theorem tfScan_some_bounds (z : ℚ) (mk : ℕ) :
    ∀ (ws : List FVal) (cum : FVal) (idx r : ℕ),
      tfScan z mk cum idx ws = some r →
      idx ≤ r ∧ r < idx + ws.length ∧ mk ≤ r := by
  intro ws
  induction ws with
  | nil => intro cum idx r h; simp [tfScan] at h
  | cons w rest ih =>
    intro cum idx r h
    rw [tfScan] at h
    by_cases hc : (cum.add w).gtq z = true ∧ mk ≤ idx
    · rw [if_pos hc] at h
      cases h
      exact ⟨le_refl _, by simp, hc.2⟩
    · rw [if_neg hc] at h
      obtain ⟨h1, h2, h3⟩ := ih (cum.add w) (idx + 1) r h
      exact ⟨by omega, by simp only [List.length_cons]; omega, h3⟩

theorem tfScan_fin_some (z : ℚ) (mk : ℕ) :
    ∀ (qs : List ℚ) (c : ℚ) (idx r : ℕ),
      tfScan z mk (FVal.fin c) idx (qs.map FVal.fin) = some r →
      ∃ i, i < qs.length ∧ r = idx + i ∧
        (z < c + cumAt qs i ∧ mk ≤ idx + i) ∧
        ∀ j, j < i → ¬ (z < c + cumAt qs j ∧ mk ≤ idx + j) := by
  intro qs
  induction qs with
  | nil => intro c idx r h; simp [tfScan] at h
  | cons q rest ih =>
    intro c idx r h
    rw [List.map_cons, tfScan] at h
    have hadd : (FVal.fin c).add (FVal.fin q) = FVal.fin (c + q) := rfl
    rw [hadd] at h
    by_cases hc : z < c + q ∧ mk ≤ idx
    · rw [if_pos (by simpa [FVal.gtq] using hc)] at h
      cases h
      refine ⟨0, by simp, by omega, ⟨by rw [cumAt_cons_zero]; exact hc.1, by omega⟩,
        fun j hj => absurd hj (Nat.not_lt_zero j)⟩
    · rw [if_neg (by simpa [FVal.gtq] using hc)] at h
      obtain ⟨i, hi, hr, hstop, hmin⟩ := ih (c + q) (idx + 1) r h
      refine ⟨i + 1, by simpa using Nat.succ_lt_succ hi, by omega, ?_, ?_⟩
      · refine ⟨by rw [cumAt_cons_succ, ← add_assoc]; exact hstop.1, ?_⟩
        have := hstop.2; omega
      · intro j hj
        cases j with
        | zero =>
          intro hcon
          exact hc ⟨by rw [cumAt_cons_zero] at hcon; exact hcon.1, by have := hcon.2; omega⟩
        | succ j2 =>
          intro hcon
          have h2 := hcon.2
          refine hmin j2 (by omega) ⟨?_, by omega⟩
          rw [cumAt_cons_succ, ← add_assoc] at hcon
          exact hcon.1

theorem tfScan_fin_none (z : ℚ) (mk : ℕ) :
    ∀ (qs : List ℚ) (c : ℚ) (idx : ℕ),
      tfScan z mk (FVal.fin c) idx (qs.map FVal.fin) = none →
      ∀ j, j < qs.length → ¬ (z < c + cumAt qs j ∧ mk ≤ idx + j) := by
  intro qs
  induction qs with
  | nil => intro c idx _ j hj; simp at hj
  | cons q rest ih =>
    intro c idx h j hj
    rw [List.map_cons, tfScan] at h
    have hadd : (FVal.fin c).add (FVal.fin q) = FVal.fin (c + q) := rfl
    rw [hadd] at h
    by_cases hc : z < c + q ∧ mk ≤ idx
    · rw [if_pos (by simpa [FVal.gtq] using hc)] at h; cases h
    · rw [if_neg (by simpa [FVal.gtq] using hc)] at h
      cases j with
      | zero =>
        intro hcon
        exact hc ⟨by rw [cumAt_cons_zero] at hcon; exact hcon.1, by have := hcon.2; omega⟩
      | succ j2 =>
        intro hcon
        have h2 := hcon.2
        refine ih (c + q) (idx + 1) h j2 (by simpa using hj) ⟨?_, by omega⟩
        rw [cumAt_cons_succ, ← add_assoc] at hcon
        exact hcon.1

theorem FVal.add_nan (v : FVal) : FVal.add v .nan = .nan := by
  cases v <;> rfl

/-! ### Unfolding the samplers on the valid-softmax path -/

theorem sampleTopP_valid (E : ℚ → ℚ) (p : ℚ) (mk : ℕ) (lg : Logits)
    (hv : lg.softmax_valid = true) :
    sampleTopP E p mk lg =
      if (topPScan p mk 0 0 (probsOf lg)).getD lg.entries.length ≠ lg.entries.length then
        .ok ((lg.truncate ((topPScan p mk 0 0 (probsOf lg)).getD lg.entries.length)).set_softmax
          false)
      else .ok lg := by
  rw [sampleTopP, ensure_softmax_of_valid E lg hv]
  rfl

theorem sampleTailFree_main (E : ℚ → ℚ) (z : ℚ) (mk : ℕ) (lg : Logits)
    (hv : lg.softmax_valid = true) (h3 : 3 ≤ lg.entries.length) (hz : ¬ 1 ≤ z) :
    sampleTailFree E z mk lg =
      .ok (lg.truncate ((tfScan z mk (FVal.fin 0) 0
        ((sderivsOf lg).map (fun s => fdiv s (sderivsOf lg).sum))).getD lg.entries.length)) := by
  have hcond : ¬ (1 ≤ z ∨ lg.entries.length < 2) := by
    rw [not_or]; exact ⟨hz, by omega⟩
  have hplen : (lg.entries.map LogitEntry.prob).length = lg.entries.length := by simp
  have hds : 2 ≤ (pairDiffs (lg.entries.map LogitEntry.prob)).length := by
    rw [pairDiffs_length, hplen]; omega
  have hwant : lg.entries.length - 2 =
      ([] : List ℚ).length + (pairDiffs (lg.entries.map LogitEntry.prob)).length - 1 := by
    rw [pairDiffs_length, hplen]; simp; omega
  have hloop := sderivsLoop_ok (pairDiffs (lg.entries.map LogitEntry.prob)) [] 0
    (lg.entries.length - 2) hds hwant
  rw [sampleTailFree, if_neg hcond, ensure_softmax_of_valid E lg hv]
  simp only [hloop, List.reverse_nil, List.nil_append, zero_add]
  rfl

/-! ### Concrete buffers used as inputs for counterexamples and witnesses -/

/-- A 3-entry buffer with valid softmax whose probabilities form an exact
arithmetic progression (common difference `-1/6`). -/
def lgArith : Logits := ⟨[⟨0, 3, 1/2⟩, ⟨1, 2, 1/3⟩, ⟨2, 1, 1/6⟩], true⟩

/-- A 2-entry buffer with valid softmax probabilities. -/
def lgTwo : Logits := ⟨[⟨0, 1, 2/3⟩, ⟨1, 0, 1/3⟩], true⟩

/-- A 6-entry buffer with valid softmax probabilities (they sum to 1 and are
strictly descending); its normalised second-derivative weights are
`[1/5, 1/5, 1/5, 2/5]`. -/
def lgSix : Logits :=
  ⟨[⟨0, 6, 79/300⟩, ⟨1, 5, 64/300⟩, ⟨2, 4, 52/300⟩,
    ⟨3, 3, 43/300⟩, ⟨4, 2, 37/300⟩, ⟨5, 1, 25/300⟩], true⟩

/-- The first three entries of `lgSix` (what tail-free sampling with
`z = 7/10`, `min_keep = 0` keeps of it). -/
def lgSix3 : Logits := ⟨[⟨0, 6, 79/300⟩, ⟨1, 5, 64/300⟩, ⟨2, 4, 52/300⟩], true⟩

/-- The empty buffer with the softmax flag still set. -/
def lgEmpty : Logits := ⟨[], true⟩

/-- The spec's TopP boundary example: probabilities `[0.5, 0.3, 0.15, 0.05]`. -/
def lgTopP : Logits := ⟨[⟨0, 4, 1/2⟩, ⟨1, 3, 3/10⟩, ⟨2, 2, 3/20⟩, ⟨3, 1, 1/20⟩], true⟩

/-- The IEEE division `0/0` is NaN. -/
theorem fdiv_zero_zero : fdiv 0 0 = FVal.nan := by norm_num [fdiv]

/-- Claim C1 (counterexample): on a 3-entry buffer with valid softmax whose
probabilities form an exact arithmetic progression (its second-derivative
sequence is `[0]`, so the sum `S` is zero), `SampleTailFree::sample` with
`z = 1/2`, `min_keep = 1` does NOT return an `InternalError`: it returns `Ok`
with the buffer unchanged. -/
theorem tailFree_zero_variance_returns_ok :
    sderivsOf lgArith = [0] ∧ sampleTailFree id (1/2) 1 lgArith = .ok lgArith := by
  constructor
  · norm_num [sderivsOf, probsOf, lgArith, pairDiffs, pairAbsDiffs]
  · norm_num [sampleTailFree, lgArith, Logits.ensure_softmax, sderivsLoop, pairDiffs,
      pairAbsDiffs, fdiv, tfScan, FVal.add, FVal.gtq, Logits.truncate]

/-- Claim C1 (amended): for every buffer with valid softmax probabilities and
at least 3 entries whose second differences all vanish (zero second-derivative
sum), `SampleTailFree::sample` succeeds and leaves the buffer unchanged for
every `z` and `min_keep` — the `0/0` normalisation produces NaN weights, every
`NaN > z` comparison is false, so no stopping index is found and nothing is
truncated; no `InternalError` is raised. -/
theorem tailFree_zero_variance_noop (E : ℚ → ℚ) (z : ℚ) (mk : ℕ) (lg : Logits)
    (hv : lg.softmax_valid = true) (h3 : 3 ≤ lg.entries.length)
    (hzero : ∀ s ∈ sderivsOf lg, s = 0) :
    sampleTailFree E z mk lg = .ok lg := by
  by_cases hz : 1 ≤ z
  · rw [sampleTailFree, if_pos (Or.inl hz)]
  · rw [sampleTailFree_main E z mk lg hv h3 hz]
    have hsum : (sderivsOf lg).sum = 0 := List.sum_eq_zero hzero
    have hlen : (sderivsOf lg).length = lg.entries.length - 2 := by
      rw [sderivsOf, pairAbsDiffs_length, pairDiffs_length]
      simp only [probsOf, List.length_map]
      omega
    have hscan : tfScan z mk (FVal.fin 0) 0
        ((sderivsOf lg).map (fun s => fdiv s (sderivsOf lg).sum)) = none := by
      cases hsd : sderivsOf lg with
      | nil => rw [hsd] at hlen; simp only [List.length_nil] at hlen; omega
      | cons s sd2 =>
        rw [hsd] at hsum
        have hs : s = 0 := hzero s (by rw [hsd]; exact List.mem_cons_self s sd2)
        rw [hsum, List.map_cons, tfScan, hs, fdiv_zero_zero, FVal.add_nan, FVal.nan_gtq]
        simp only [Bool.false_eq_true, false_and, if_false]
        exact tfScan_nan z mk _ 1
    rw [hscan]
    exact congrArg Except.ok (truncate_self lg lg.entries.length (le_refl _))

/-- Claim C1 (witness for the amended theorem): the hypotheses are satisfied
by the concrete arithmetic-progression buffer `lgArith` with `z = 1/2`,
`min_keep = 1`. -/
theorem tailFree_zero_variance_noop_witness :
    (lgArith.softmax_valid = true ∧ 3 ≤ lgArith.entries.length ∧
      (∀ s ∈ sderivsOf lgArith, s = 0)) ∧
    sampleTailFree id (1/2) 1 lgArith = .ok lgArith := by
  have hzero : ∀ s ∈ sderivsOf lgArith, s = 0 := by
    intro s hs
    have : sderivsOf lgArith = [0] := by
      norm_num [sderivsOf, probsOf, lgArith, pairDiffs, pairAbsDiffs]
    rw [this] at hs
    simpa using hs
  exact ⟨⟨rfl, by norm_num [lgArith], hzero⟩,
    tailFree_zero_variance_noop id (1/2) 1 lgArith rfl (by norm_num [lgArith]) hzero⟩

/-- Claim C2 (code bug, evaluation at the failing input): a 2-entry buffer
with valid softmax probabilities and `z = 1/2 < 1`, `min_keep = 1` makes
`SampleTailFree::sample` return the "Impossible: missing next deriv item?"
internal error instead of succeeding unchanged: the `len < 2` early return
does not cover the 2-entry case, and the derivative loop then peeks past the
single first-difference. -/
theorem tailFree_two_entries_internal_error :
    sampleTailFree id (1/2) 1 lgTwo =
      .error (.InternalError "Impossible: missing next deriv item?", lgTwo) := by
  norm_num [sampleTailFree, lgTwo, Logits.ensure_softmax, sderivsLoop, pairDiffs]

/-- Claim C4 (code bug, evaluation at the failing input): tail-free sampling
on `lgSix` (`z = 7/10`, `min_keep = 0`) removes three of the six entries, yet
the buffer's `softmax_valid` flag is still `true` after the call —
`tail_free.rs` truncates without marking the probabilities stale, unlike
`top_p.rs`. -/
theorem tailFree_truncation_keeps_flag_true :
    sampleTailFree id (7/10) 0 lgSix = .ok lgSix3 ∧
    lgSix3.entries.length < lgSix.entries.length ∧ lgSix3.softmax_valid = true := by
  refine ⟨?_, by norm_num [lgSix, lgSix3], rfl⟩
  norm_num [sampleTailFree, lgSix, lgSix3, Logits.ensure_softmax, sderivsLoop, pairDiffs,
    pairAbsDiffs, fdiv, tfScan, FVal.add, FVal.gtq, Logits.truncate,
    abs_of_nonneg, abs_of_nonpos]

theorem ensure_softmax_ok_of_ne (E : ℚ → ℚ) (lg : Logits) (h : lg.entries ≠ []) :
    ∃ lg1, Logits.ensure_softmax E lg = .ok lg1 := by
  by_cases hv : lg.softmax_valid
  · exact ⟨lg, ensure_softmax_of_valid E lg hv⟩
  · rw [Logits.ensure_softmax, if_neg hv]
    cases he : lg.entries with
    | nil => exact absurd he h
    | cons e0 rest => exact ⟨_, rfl⟩

/-- Claim C5: for every buffer with valid softmax probabilities and every `p`
and `min_keep`, TopP keeps exactly `i + 1` entries where `i` is the first
0-based index at which `cum_sum ≥ p` and `i + 1 ≥ min_keep` both hold; if no
index satisfies both conditions by the end of the buffer, every entry is kept
(the buffer is returned unchanged). -/
theorem topP_keep_count (E : ℚ → ℚ) (p : ℚ) (mk : ℕ) (lg : Logits)
    (hv : lg.softmax_valid = true) :
    ∃ out, sampleTopP E p mk lg = .ok out ∧
      ((∃ i, i < lg.entries.length ∧ stopP p mk (probsOf lg) i ∧
          (∀ j, j < i → ¬ stopP p mk (probsOf lg) j) ∧
          out.entries = lg.entries.take (i + 1)) ∨
        ((∀ j, j < lg.entries.length → ¬ stopP p mk (probsOf lg) j) ∧ out = lg)) := by
  have hplen : (probsOf lg).length = lg.entries.length := by simp [probsOf]
  rw [sampleTopP_valid E p mk lg hv]
  cases hscan : topPScan p mk 0 0 (probsOf lg) with
  | none =>
    refine ⟨lg, by simp [hscan], Or.inr ⟨?_, rfl⟩⟩
    intro j hj
    have := topPScan_none p mk (probsOf lg) 0 0 hscan j (by rw [hplen]; exact hj)
    simpa [stopP, zero_add] using this
  | some r =>
    obtain ⟨i, hi, hr, hstop, hmin⟩ := topPScan_some p mk (probsOf lg) 0 0 r hscan
    have hstop' : stopP p mk (probsOf lg) i := by
      refine ⟨?_, ?_⟩
      · have := hstop.1; rw [zero_add] at this; exact this
      · have := hstop.2; omega
    have hmin' : ∀ j, j < i → ¬ stopP p mk (probsOf lg) j := by
      intro j hj hcon
      exact hmin j hj ⟨by rw [zero_add]; exact hcon.1, by have := hcon.2; omega⟩
    have hilen : i < lg.entries.length := by rw [← hplen]; exact hi
    by_cases hne : r ≠ lg.entries.length
    · refine ⟨(lg.truncate r).set_softmax false, ?_, Or.inl ⟨i, hilen, hstop', hmin', ?_⟩⟩
      · simp only [Option.getD_some]; rw [if_pos hne]
      · simp only [Logits.set_softmax, Logits.truncate]
        rw [show r = i + 1 by omega]
    · push_neg at hne
      refine ⟨lg, ?_, Or.inl ⟨i, hilen, hstop', hmin', ?_⟩⟩
      · simp only [Option.getD_some]
        rw [if_neg (by omega)]
      · rw [show i + 1 = lg.entries.length by omega, List.take_length]

/-- Claim C5 (witness): the spec's own boundary example — probabilities
`[1/2, 3/10, 3/20, 1/20]` with `p = 4/5`, `min_keep = 1` — satisfies the
hypothesis. -/
theorem topP_keep_count_witness :
    lgTopP.softmax_valid = true ∧
    (∃ out, sampleTopP id (4/5) 1 lgTopP = .ok out ∧
      ((∃ i, i < lgTopP.entries.length ∧ stopP (4/5) 1 (probsOf lgTopP) i ∧
          (∀ j, j < i → ¬ stopP (4/5) 1 (probsOf lgTopP) j) ∧
          out.entries = lgTopP.entries.take (i + 1)) ∨
        ((∀ j, j < lgTopP.entries.length → ¬ stopP (4/5) 1 (probsOf lgTopP) j) ∧
          out = lgTopP))) :=
  ⟨rfl, topP_keep_count id (4/5) 1 lgTopP rfl⟩

/-- Claim C9: for every non-empty buffer and every `p` and `min_keep`
(including `min_keep = 0`), TopP succeeds and keeps at least one entry: on an
early stop the kept-count is `idx + 1 ≥ 1`, otherwise everything is kept. -/
theorem topP_keeps_at_least_one (E : ℚ → ℚ) (p : ℚ) (mk : ℕ) (lg : Logits)
    (h : lg.entries ≠ []) :
    ∃ out, sampleTopP E p mk lg = .ok out ∧ 1 ≤ out.entries.length := by
  obtain ⟨lg1, h1⟩ := ensure_softmax_ok_of_ne E lg h
  obtain ⟨hval, hlen, hproj⟩ := ensure_softmax_ok_spec E lg lg1 h1
  have hne1 : 1 ≤ lg1.entries.length := by
    rw [hlen]
    cases he : lg.entries with
    | nil => exact absurd he h
    | cons e0 rest => simp
  simp only [sampleTopP, h1]
  cases hscan : topPScan p mk 0 0 (lg1.entries.map LogitEntry.prob) with
  | none =>
    refine ⟨lg1, by simp, hne1⟩
  | some r =>
    obtain ⟨i, hi, hr, _, _⟩ := topPScan_some p mk _ 0 0 r hscan
    by_cases hne : r ≠ lg1.entries.length
    · refine ⟨(lg1.truncate r).set_softmax false, ?_, ?_⟩
      · simp only [Option.getD_some]; rw [if_pos hne]
      · simp only [Logits.set_softmax, Logits.truncate, List.length_take]
        omega
    · push_neg at hne
      refine ⟨lg1, ?_, hne1⟩
      simp only [Option.getD_some]
      rw [if_neg (by omega)]

/-- Claim C9 (witness): the non-empty buffer `lgTopP` with `p = 1/10` and
`min_keep = 0`. -/
theorem topP_keeps_at_least_one_witness :
    lgTopP.entries ≠ [] ∧
    (∃ out, sampleTopP id (1/10) 0 lgTopP = .ok out ∧ 1 ≤ out.entries.length) :=
  ⟨by simp [lgTopP], topP_keeps_at_least_one id (1/10) 0 lgTopP (by simp [lgTopP])⟩

/-- Claim C6: for every buffer of at least 3 entries with valid softmax
probabilities, `z < 1` and nonzero second-derivative sum, TailFree keeps
exactly `idx` entries where `idx` is the first index in the normalised
second-derivative weights at which `cum_sum > z` (strictly) and
`idx ≥ min_keep`; if no such index exists, every entry is kept (the buffer is
returned unchanged). -/
theorem tailFree_keep_count (E : ℚ → ℚ) (z : ℚ) (mk : ℕ) (lg : Logits)
    (hv : lg.softmax_valid = true) (h3 : 3 ≤ lg.entries.length)
    (hz : z < 1) (hS : (sderivsOf lg).sum ≠ 0) :
    ∃ out, sampleTailFree E z mk lg = .ok out ∧
      ((∃ i, i < (tfW lg).length ∧ stopTF z mk (tfW lg) i ∧
          (∀ j, j < i → ¬ stopTF z mk (tfW lg) j) ∧
          out.entries = lg.entries.take i) ∨
        ((∀ j, j < (tfW lg).length → ¬ stopTF z mk (tfW lg) j) ∧ out = lg)) := by
  have hz' : ¬ 1 ≤ z := not_le.mpr hz
  have hws : (fun s => fdiv s (sderivsOf lg).sum) =
      fun s : ℚ => FVal.fin (s / (sderivsOf lg).sum) :=
    funext fun s => by rw [fdiv, if_neg hS]
  have hmap : (sderivsOf lg).map (fun s => fdiv s (sderivsOf lg).sum) =
      (tfW lg).map FVal.fin := by
    rw [hws, tfW, List.map_map]
    rfl
  rw [sampleTailFree_main E z mk lg hv h3 hz', hmap]
  cases hscan : tfScan z mk (FVal.fin 0) 0 ((tfW lg).map FVal.fin) with
  | none =>
    refine ⟨lg, ?_, Or.inr ⟨?_, rfl⟩⟩
    · simp only [Option.getD_none]
      rw [truncate_self lg lg.entries.length (le_refl _)]
    · intro j hj hcon
      exact tfScan_fin_none z mk (tfW lg) 0 0 hscan j hj
        ⟨by rw [zero_add]; exact hcon.1, by have := hcon.2; omega⟩
  | some r =>
    obtain ⟨i, hi, hr, hstop, hmin⟩ := tfScan_fin_some z mk (tfW lg) 0 0 r hscan
    refine ⟨lg.truncate r, by simp only [Option.getD_some], Or.inl ⟨i, hi, ?_, ?_, ?_⟩⟩
    · exact ⟨by have := hstop.1; rw [zero_add] at this; exact this, by have := hstop.2; omega⟩
    · intro j hj hcon
      exact hmin j hj ⟨by rw [zero_add]; exact hcon.1, by have := hcon.2; omega⟩
    · rw [truncate_entries, show r = i by omega]

/-- Claim C6 (witness): the 6-entry buffer `lgSix` with `z = 7/10`,
`min_keep = 0`; its normalised weights are `[1/5, 1/5, 1/5, 2/5]` and the
second-derivative sum is `1/20 ≠ 0`. -/
theorem tailFree_keep_count_witness :
    (lgSix.softmax_valid = true ∧ 3 ≤ lgSix.entries.length ∧ (7:ℚ)/10 < 1 ∧
      (sderivsOf lgSix).sum ≠ 0) ∧
    (∃ out, sampleTailFree id (7/10) 0 lgSix = .ok out ∧
      ((∃ i, i < (tfW lgSix).length ∧ stopTF (7/10) 0 (tfW lgSix) i ∧
          (∀ j, j < i → ¬ stopTF (7/10) 0 (tfW lgSix) j) ∧
          out.entries = lgSix.entries.take i) ∨
        ((∀ j, j < (tfW lgSix).length → ¬ stopTF (7/10) 0 (tfW lgSix) j) ∧
          out = lgSix))) := by
  have hS : (sderivsOf lgSix).sum ≠ 0 := by
    norm_num [sderivsOf, probsOf, lgSix, pairDiffs, pairAbsDiffs,
      abs_of_nonneg, abs_of_nonpos]
  exact ⟨⟨rfl, by norm_num [lgSix], by norm_num, hS⟩,
    tailFree_keep_count id (7/10) 0 lgSix rfl (by norm_num [lgSix]) (by norm_num) hS⟩

/-! ### Shapes of successful runs -/

theorem sampleTopP_ok_cases (E : ℚ → ℚ) (p : ℚ) (mk : ℕ) (lg out : Logits)
    (h : sampleTopP E p mk lg = .ok out) :
    ∃ lg1, Logits.ensure_softmax E lg = .ok lg1 ∧
      ((out = lg1 ∧
        (topPScan p mk 0 0 (probsOf lg1)).getD lg1.entries.length = lg1.entries.length) ∨
       ∃ r, topPScan p mk 0 0 (probsOf lg1) = some r ∧ r ≠ lg1.entries.length ∧
        out = (lg1.truncate r).set_softmax false) := by
  cases he : lg.ensure_softmax E with
  | error e =>
    simp only [sampleTopP, he] at h
    cases h
  | ok lg1 =>
    simp only [sampleTopP, he] at h
    refine ⟨lg1, rfl, ?_⟩
    cases hscan : topPScan p mk 0 0 (lg1.entries.map LogitEntry.prob) with
    | none =>
      rw [hscan] at h
      simp only [Option.getD_none] at h
      rw [if_neg (fun hc => hc rfl)] at h
      refine Or.inl ⟨(Except.ok.inj h).symm, ?_⟩
      rw [show probsOf lg1 = lg1.entries.map LogitEntry.prob from rfl, hscan]
      rfl
    | some r =>
      rw [hscan] at h
      simp only [Option.getD_some] at h
      by_cases hne : r ≠ lg1.entries.length
      · rw [if_pos hne] at h
        exact Or.inr ⟨r, hscan, hne, (Except.ok.inj h).symm⟩
      · rw [if_neg hne] at h
        push_neg at hne
        refine Or.inl ⟨(Except.ok.inj h).symm, ?_⟩
        rw [show probsOf lg1 = lg1.entries.map LogitEntry.prob from rfl, hscan,
          Option.getD_some, hne]

theorem sampleTailFree_ok_cases (E : ℚ → ℚ) (z : ℚ) (mk : ℕ) (lg out : Logits)
    (h : sampleTailFree E z mk lg = .ok out) :
    out = lg ∨ ∃ lg1 sd, (¬ 1 ≤ z) ∧ 2 ≤ lg.entries.length ∧
      Logits.ensure_softmax E lg = .ok lg1 ∧
      sderivsLoop (lg1.entries.length - 2) [] 0
        (pairDiffs (lg1.entries.map LogitEntry.prob)) = .ok sd ∧
      out = lg1.truncate ((tfScan z mk (FVal.fin 0) 0
        (sd.1.map (fun s => fdiv s sd.2))).getD lg1.entries.length) := by
  by_cases hc : 1 ≤ z ∨ lg.entries.length < 2
  · rw [sampleTailFree, if_pos hc] at h
    exact Or.inl (Except.ok.inj h).symm
  · have hc2 := hc
    rw [not_or] at hc2
    rw [sampleTailFree, if_neg hc] at h
    cases he : lg.ensure_softmax E with
    | error e =>
      simp only [he] at h
      cases h
    | ok lg1 =>
      simp only [he] at h
      cases hloop : sderivsLoop (lg1.entries.length - 2) [] 0
          (pairDiffs (lg1.entries.map LogitEntry.prob)) with
      | error e2 =>
        simp only [hloop] at h
        cases h
      | ok sd =>
        simp only [hloop] at h
        exact Or.inr ⟨lg1, sd, hc2.1, by have := hc2.2; omega, rfl, hloop,
          (Except.ok.inj h).symm⟩

theorem take_min {α : Type} (l : List α) (r : ℕ) : l.take r = l.take (min r l.length) := by
  by_cases h : r ≤ l.length
  · rw [min_eq_left h]
  · push_neg at h
    rw [min_eq_right (le_of_lt h), List.take_length, List.take_of_length_le (le_of_lt h)]

theorem sderivsLoop_ok_shape (lg1 : Logits) (sd : List ℚ × ℚ) (h2 : 2 ≤ lg1.entries.length)
    (hloop : sderivsLoop (lg1.entries.length - 2) [] 0
      (pairDiffs (lg1.entries.map LogitEntry.prob)) = .ok sd) :
    3 ≤ lg1.entries.length ∧ sd = (sderivsOf lg1, (sderivsOf lg1).sum) ∧
      sd.1.length = lg1.entries.length - 2 := by
  by_cases h3 : 3 ≤ lg1.entries.length
  · have hds : 2 ≤ (pairDiffs (lg1.entries.map LogitEntry.prob)).length := by
      rw [pairDiffs_length]; simp only [List.length_map]; omega
    have hwant : lg1.entries.length - 2 =
        ([] : List ℚ).length + (pairDiffs (lg1.entries.map LogitEntry.prob)).length - 1 := by
      rw [pairDiffs_length]; simp only [List.length_map, List.length_nil]; omega
    rw [sderivsLoop_ok _ [] 0 _ hds hwant] at hloop
    have hsd := (Except.ok.inj hloop).symm
    have hsd1 : sd = (sderivsOf lg1, (sderivsOf lg1).sum) := by
      rw [hsd]; simp [sderivsOf, probsOf]
    refine ⟨h3, hsd1, ?_⟩
    rw [hsd1]
    simp only [sderivsOf, probsOf]
    rw [pairAbsDiffs_length, pairDiffs_length]
    simp only [List.length_map]
    omega
  · have hlen2 : lg1.entries.length = 2 := by omega
    have hone : (pairDiffs (lg1.entries.map LogitEntry.prob)).length = 1 := by
      rw [pairDiffs_length]; simp [hlen2]
    obtain ⟨d, hd⟩ := List.length_eq_one.mp hone
    rw [hd, sderivsLoop_singleton] at hloop
    cases hloop

/-- Claim C7: for both samplers, on every successful call the output length is
at least `min(min_keep, input length)`; in particular when the input has fewer
entries than `min_keep` the entry count is unchanged (the sampler is a no-op
on the entry list). -/
theorem min_keep_floor (E E2 : ℚ → ℚ) (p z : ℚ) (mk mk2 : ℕ) (lg lg2 out out2 : Logits)
    (h1 : sampleTopP E p mk lg = .ok out) (h2 : sampleTailFree E2 z mk2 lg2 = .ok out2) :
    (min mk lg.entries.length ≤ out.entries.length ∧
      (lg.entries.length < mk → out.entries.length = lg.entries.length)) ∧
    (min mk2 lg2.entries.length ≤ out2.entries.length ∧
      (lg2.entries.length < mk2 → out2.entries.length = lg2.entries.length)) := by
  constructor
  · obtain ⟨lg1, he, hcase⟩ := sampleTopP_ok_cases E p mk lg out h1
    obtain ⟨hval, hlen, hproj⟩ := ensure_softmax_ok_spec E lg lg1 he
    cases hcase with
    | inl hout => rw [hout.1, hlen]; exact ⟨min_le_right _ _, fun _ => rfl⟩
    | inr hsc =>
      obtain ⟨r, hscan, hrne, hout⟩ := hsc
      obtain ⟨i, hi, hr, hstop, _⟩ := topPScan_some p mk _ 0 0 r hscan
      have hmk : mk ≤ r := by have := hstop.2; omega
      have hilen : i < lg.entries.length := by
        simp only [probsOf, List.length_map] at hi; omega
      have holen : out.entries.length = min r lg.entries.length := by
        rw [hout]; simp [Logits.set_softmax, Logits.truncate, hlen]
      exact ⟨by omega, fun hlt => by omega⟩
  · obtain hcase := sampleTailFree_ok_cases E2 z mk2 lg2 out2 h2
    cases hcase with
    | inl hout => rw [hout]; exact ⟨min_le_right _ _, fun _ => rfl⟩
    | inr hsc =>
      obtain ⟨lg1, sd, hz, hge2, he, hloop, hout⟩ := hsc
      obtain ⟨hval, hlen, hproj⟩ := ensure_softmax_ok_spec E2 lg2 lg1 he
      obtain ⟨h3, hsd, hsdlen⟩ := sderivsLoop_ok_shape lg1 sd (by omega) hloop
      cases hscan : tfScan z mk2 (FVal.fin 0) 0 (sd.1.map (fun s => fdiv s sd.2)) with
      | none =>
        rw [hscan] at hout
        simp only [Option.getD_none] at hout
        have hfull : out2.entries.length = lg2.entries.length := by
          rw [hout, truncate_length]; omega
        exact ⟨by omega, fun _ => hfull⟩
      | some r =>
        rw [hscan] at hout
        simp only [Option.getD_some] at hout
        obtain ⟨_, hrlt, hmk⟩ := tfScan_some_bounds z mk2 _ (FVal.fin 0) 0 r hscan
        have hr2 : r < lg1.entries.length - 2 := by
          simp only [List.length_map, hsdlen] at hrlt; omega
        have holen : out2.entries.length = min r lg2.entries.length := by
          rw [hout, truncate_length, hlen]
        exact ⟨by omega, fun hlt => by omega⟩

/-- Claim C7 (witness): TopP on `lgTopP` (`p = 4/5`, `min_keep = 1`, keeps 2
of 4 entries) and TailFree on `lgTwo` with `z = 1` (early no-op return). -/
theorem min_keep_floor_witness :
    sampleTopP id (4/5) 1 lgTopP = .ok (⟨[⟨0, 4, 1/2⟩, ⟨1, 3, 3/10⟩], false⟩ : Logits) ∧
    sampleTailFree id 1 1 lgTwo = .ok lgTwo ∧
    ((min 1 lgTopP.entries.length ≤
        (⟨[⟨0, 4, 1/2⟩, ⟨1, 3, 3/10⟩], false⟩ : Logits).entries.length ∧
      (lgTopP.entries.length < 1 →
        (⟨[⟨0, 4, 1/2⟩, ⟨1, 3, 3/10⟩], false⟩ : Logits).entries.length =
          lgTopP.entries.length)) ∧
     (min 1 lgTwo.entries.length ≤ lgTwo.entries.length ∧
      (lgTwo.entries.length < 1 → lgTwo.entries.length = lgTwo.entries.length))) := by
  have h1 : sampleTopP id (4/5) 1 lgTopP =
      .ok (⟨[⟨0, 4, 1/2⟩, ⟨1, 3, 3/10⟩], false⟩ : Logits) := by
    norm_num [sampleTopP, lgTopP, Logits.ensure_softmax, topPScan, Logits.truncate,
      Logits.set_softmax]
  have h2 : sampleTailFree id 1 1 lgTwo = .ok lgTwo := by
    norm_num [sampleTailFree]
  exact ⟨h1, h2, min_keep_floor id id (4/5) 1 1 1 lgTopP lgTwo _ lgTwo h1 h2⟩

theorem suffix_facts (E : ℚ → ℚ) (lg lg1 out : Logits) (k : ℕ)
    (he : Logits.ensure_softmax E lg = .ok lg1)
    (hout : out.entries = lg1.entries.take k) :
    projEntries out = (projEntries lg).take out.entries.length ∧
    out.entries.length ≤ lg.entries.length ∧
    (lg.softmax_valid = true → out.entries = lg.entries.take out.entries.length) := by
  obtain ⟨hval, hlen, hproj⟩ := ensure_softmax_ok_spec E lg lg1 he
  have hprojlen : (projEntries lg).length = lg.entries.length := by simp [projEntries]
  have hlenout : out.entries.length = min k lg.entries.length := by
    rw [hout, List.length_take, hlen]
  have hproj_take : projEntries out = (projEntries lg).take k := by
    rw [projEntries, hout, List.map_take]
    rw [show lg1.entries.map projEntry = projEntries lg1 from rfl, hproj]
  refine ⟨?_, by omega, ?_⟩
  · rw [hproj_take, hlenout, take_min (projEntries lg) k, hprojlen]
  · intro hv
    have hlg1 : lg1 = lg := by
      have hok := ensure_softmax_of_valid E lg hv
      rw [hok] at he
      exact (Except.ok.inj he).symm
    rw [hlenout, hout, hlg1, ← take_min lg.entries k]

/-- Claim C8: for both samplers, on every successful call only a contiguous
suffix is removed: the surviving entry sequence is a prefix of the input's
(up to the `prob` cache, which softmax recomputation may rewrite; when the
input's probabilities were already valid the entries are literally a prefix),
so the output length never exceeds the input length and the relative order of
survivors equals their input order. -/
theorem truncation_suffix_only (E E2 : ℚ → ℚ) (p z : ℚ) (mk mk2 : ℕ)
    (lg lg2 out out2 : Logits)
    (h1 : sampleTopP E p mk lg = .ok out) (h2 : sampleTailFree E2 z mk2 lg2 = .ok out2) :
    (projEntries out = (projEntries lg).take out.entries.length ∧
      out.entries.length ≤ lg.entries.length ∧
      (lg.softmax_valid = true → out.entries = lg.entries.take out.entries.length)) ∧
    (projEntries out2 = (projEntries lg2).take out2.entries.length ∧
      out2.entries.length ≤ lg2.entries.length ∧
      (lg2.softmax_valid = true → out2.entries = lg2.entries.take out2.entries.length)) := by
  constructor
  · obtain ⟨lg1, he, hcase⟩ := sampleTopP_ok_cases E p mk lg out h1
    cases hcase with
    | inl hout =>
      refine suffix_facts E lg lg1 out lg1.entries.length he ?_
      rw [hout.1, List.take_length]
    | inr hsc =>
      obtain ⟨r, _, _, hout⟩ := hsc
      refine suffix_facts E lg lg1 out r he ?_
      rw [hout]
      rfl
  · obtain hcase := sampleTailFree_ok_cases E2 z mk2 lg2 out2 h2
    cases hcase with
    | inl hout =>
      have hlen2 : out2.entries.length = lg2.entries.length := by rw [hout]
      refine ⟨?_, by omega, ?_⟩
      · rw [hout, show lg2.entries.length = (projEntries lg2).length by
          simp [projEntries], List.take_length]
      · intro _
        rw [hout, List.take_length]
    | inr hsc =>
      obtain ⟨lg1, sd, hz, hge2, he, hloop, hout⟩ := hsc
      refine suffix_facts E2 lg2 lg1 out2
        ((tfScan z mk2 (FVal.fin 0) 0 (sd.1.map (fun s => fdiv s sd.2))).getD
          lg1.entries.length) he ?_
      rw [hout]
      rfl

/-- Claim C8 (witness): TopP on `lgTopP` (`p = 4/5`, `min_keep = 1`) truncates
to 2 entries; TailFree on `lgTwo` with `z = 1` is an early no-op. -/
theorem truncation_suffix_only_witness :
    sampleTopP id (4/5) 1 lgTopP = .ok (⟨[⟨0, 4, 1/2⟩, ⟨1, 3, 3/10⟩], false⟩ : Logits) ∧
    sampleTailFree id 1 1 lgTwo = .ok lgTwo ∧
    ((projEntries (⟨[⟨0, 4, 1/2⟩, ⟨1, 3, 3/10⟩], false⟩ : Logits) =
        (projEntries lgTopP).take
          (⟨[⟨0, 4, 1/2⟩, ⟨1, 3, 3/10⟩], false⟩ : Logits).entries.length ∧
      (⟨[⟨0, 4, 1/2⟩, ⟨1, 3, 3/10⟩], false⟩ : Logits).entries.length ≤
        lgTopP.entries.length ∧
      (lgTopP.softmax_valid = true →
        (⟨[⟨0, 4, 1/2⟩, ⟨1, 3, 3/10⟩], false⟩ : Logits).entries =
          lgTopP.entries.take
            (⟨[⟨0, 4, 1/2⟩, ⟨1, 3, 3/10⟩], false⟩ : Logits).entries.length)) ∧
     (projEntries lgTwo = (projEntries lgTwo).take lgTwo.entries.length ∧
      lgTwo.entries.length ≤ lgTwo.entries.length ∧
      (lgTwo.softmax_valid = true →
        lgTwo.entries = lgTwo.entries.take lgTwo.entries.length))) := by
  have h1 : sampleTopP id (4/5) 1 lgTopP =
      .ok (⟨[⟨0, 4, 1/2⟩, ⟨1, 3, 3/10⟩], false⟩ : Logits) := by
    norm_num [sampleTopP, lgTopP, Logits.ensure_softmax, topPScan, Logits.truncate,
      Logits.set_softmax]
  have h2 : sampleTailFree id 1 1 lgTwo = .ok lgTwo := by
    norm_num [sampleTailFree]
  exact ⟨h1, h2, truncation_suffix_only id id (4/5) 1 1 1 lgTopP lgTwo _ lgTwo h1 h2⟩

/-- A 2-entry buffer with a stale softmax flag (the `prob` fields are
placeholders to be recomputed). -/
def lgTwoF : Logits := ⟨[⟨0, 1, 0⟩, ⟨1, 0, 0⟩], false⟩

/-- The state of `lgTwoF` after softmax recomputation with the constant-one
exponential stand-in: both probabilities become `1/2` and the flag is set. -/
def stTwoF : Logits := ⟨[⟨0, 1, 1/2⟩, ⟨1, 0, 1/2⟩], true⟩

/-- Claim C10: whenever `SampleTailFree::sample` returns an error, the entry
sequence of the buffer at the moment of the error (membership, length and
order, up to the `prob` cache softmax may have rewritten) is exactly the
input's: truncation happens only after all fallible steps. -/
theorem tailFree_error_preserves_entries (E : ℚ → ℚ) (z : ℚ) (mk : ℕ)
    (lg st : Logits) (e : SamplerError)
    (h : sampleTailFree E z mk lg = .error (e, st)) :
    projEntries st = projEntries lg ∧ st.entries.length = lg.entries.length := by
  have key : projEntries st = projEntries lg := by
    by_cases hc : 1 ≤ z ∨ lg.entries.length < 2
    · rw [sampleTailFree, if_pos hc] at h
      cases h
    · rw [sampleTailFree, if_neg hc] at h
      cases he : lg.ensure_softmax E with
      | error e2 =>
        simp only [he] at h
        have hpair := Except.error.inj h
        have hst : st = lg := (Prod.ext_iff.mp hpair).2.symm
        rw [hst]
      | ok lg1 =>
        simp only [he] at h
        cases hloop : sderivsLoop (lg1.entries.length - 2) [] 0
            (pairDiffs (lg1.entries.map LogitEntry.prob)) with
        | error e3 =>
          simp only [hloop] at h
          have hpair := Except.error.inj h
          have hst : st = lg1 := (Prod.ext_iff.mp hpair).2.symm
          rw [hst]
          exact (ensure_softmax_ok_spec E lg lg1 he).2.2
        | ok sd =>
          simp only [hloop] at h
          cases h
  refine ⟨key, ?_⟩
  have := congrArg List.length key
  simpa [projEntries] using this

/-- Claim C10 (witness): the stale 2-entry buffer `lgTwoF` with the
constant-one exponential, `z = 1/2`, `min_keep = 1`: softmax recomputes the
probabilities to `[1/2, 1/2]`, then the derivative loop fails, and the error
state `stTwoF` carries the same token/score sequence as the input. -/
theorem tailFree_error_preserves_entries_witness :
    sampleTailFree (fun _ => 1) (1/2) 1 lgTwoF =
      .error (.InternalError "Impossible: missing next deriv item?", stTwoF) ∧
    projEntries stTwoF = projEntries lgTwoF ∧
    stTwoF.entries.length = lgTwoF.entries.length := by
  have h : sampleTailFree (fun _ => 1) (1/2) 1 lgTwoF =
      .error (.InternalError "Impossible: missing next deriv item?", stTwoF) := by
    norm_num [sampleTailFree, lgTwoF, stTwoF, Logits.ensure_softmax, sderivsLoop,
      pairDiffs, List.foldl, max_def]
  exact ⟨h, tailFree_error_preserves_entries (fun _ => 1) (1/2) 1 lgTwoF stTwoF _ h⟩

/-- Claim C3 (counterexample): tail-free sampling with fixed parameters
`z = 7/10`, `min_keep = 0` applied to `lgSix` keeps 3 entries; applying the
same sampler to that output truncates further — all the way to the empty
buffer — so the second call does not leave the buffer unchanged. -/
theorem sampler_not_idempotent_after_truncation :
    sampleTailFree id (7/10) 0 lgSix = .ok lgSix3 ∧
    sampleTailFree id (7/10) 0 lgSix3 = .ok lgEmpty ∧
    lgEmpty.entries.length < lgSix3.entries.length := by
  refine ⟨?_, ?_, by norm_num [lgEmpty, lgSix3]⟩
  · norm_num [sampleTailFree, lgSix, lgSix3, Logits.ensure_softmax, sderivsLoop, pairDiffs,
      pairAbsDiffs, fdiv, tfScan, FVal.add, FVal.gtq, Logits.truncate,
      abs_of_nonneg, abs_of_nonpos]
  · norm_num [sampleTailFree, lgSix3, lgEmpty, Logits.ensure_softmax, sderivsLoop, pairDiffs,
      pairAbsDiffs, fdiv, tfScan, FVal.add, FVal.gtq, Logits.truncate,
      abs_of_nonneg, abs_of_nonpos]

/-- Claim C3 (amended): for both samplers, if the first successful call
removed no entries, then applying the sampler again with the same parameters
returns its input unchanged; when the first call did truncate, a second
application may truncate further (the samplers are not idempotent in
general). -/
theorem second_apply_noop_when_first_kept_all (E E2 : ℚ → ℚ) (p z : ℚ) (mk mk2 : ℕ)
    (lg lg2 out out2 : Logits)
    (h1 : sampleTopP E p mk lg = .ok out) (hl1 : out.entries.length = lg.entries.length)
    (h2 : sampleTailFree E2 z mk2 lg2 = .ok out2)
    (hl2 : out2.entries.length = lg2.entries.length) :
    sampleTopP E p mk out = .ok out ∧ sampleTailFree E2 z mk2 out2 = .ok out2 := by
  constructor
  · obtain ⟨lg1, he, hcase⟩ := sampleTopP_ok_cases E p mk lg out h1
    obtain ⟨hval, hlen, hproj⟩ := ensure_softmax_ok_spec E lg lg1 he
    cases hcase with
    | inl hout =>
      obtain ⟨hout1, hgetd⟩ := hout
      rw [hout1, sampleTopP_valid E p mk lg1 hval, hgetd, if_neg (fun hh => hh rfl)]
    | inr hsc =>
      exfalso
      obtain ⟨r, hscan, hrne, hout⟩ := hsc
      obtain ⟨i, hi, hr, _, _⟩ := topPScan_some p mk _ 0 0 r hscan
      have hi' : i < lg1.entries.length := by simpa [probsOf] using hi
      have hol : out.entries.length = min r lg1.entries.length := by
        rw [hout]; simp [Logits.set_softmax, Logits.truncate]
      omega
  · obtain hcase := sampleTailFree_ok_cases E2 z mk2 lg2 out2 h2
    cases hcase with
    | inl hout =>
      rw [hout] at h2 ⊢
      exact h2
    | inr hsc =>
      obtain ⟨lg1, sd, hz, hge2, he, hloop, hout⟩ := hsc
      obtain ⟨hval, hlen, hproj⟩ := ensure_softmax_ok_spec E2 lg2 lg1 he
      obtain ⟨h3, hsd, hsdlen⟩ := sderivsLoop_ok_shape lg1 sd (by omega) hloop
      cases hscan : tfScan z mk2 (FVal.fin 0) 0 (sd.1.map (fun s => fdiv s sd.2)) with
      | some r =>
        exfalso
        rw [hscan] at hout
        simp only [Option.getD_some] at hout
        obtain ⟨_, hrlt, _⟩ := tfScan_some_bounds z mk2 _ (FVal.fin 0) 0 r hscan
        have hr2 : r < lg1.entries.length - 2 := by
          simp only [List.length_map, hsdlen] at hrlt; omega
        have hol : out2.entries.length = min r lg2.entries.length := by
          rw [hout, truncate_length, hlen]
        omega
      | none =>
        rw [hscan] at hout
        simp only [Option.getD_none] at hout
        have hout2 : out2 = lg1 := by rw [hout, truncate_self lg1 _ (le_refl _)]
        rw [hout2, sampleTailFree_main E2 z mk2 lg1 hval h3 hz]
        have hws : (sderivsOf lg1).map (fun s => fdiv s (sderivsOf lg1).sum) =
            sd.1.map (fun s => fdiv s sd.2) := by rw [hsd]
        rw [hws, hscan]
        simp only [Option.getD_none]
        rw [truncate_self lg1 _ (le_refl _)]

/-- Claim C3 (witness for the amended theorem): TopP with `p = 1` on `lgTopP`
keeps everything (the cumulative sum first reaches 1 at the last entry), and
tail-free with `z = 1/2` on the arithmetic-progression buffer `lgArith` keeps
everything; both second calls are then no-ops. -/
theorem second_apply_noop_witness :
    (sampleTopP id 1 1 lgTopP = .ok lgTopP ∧
      sampleTailFree id (1/2) 1 lgArith = .ok lgArith) ∧
    (sampleTopP id 1 1 lgTopP = .ok lgTopP ∧
      sampleTailFree id (1/2) 1 lgArith = .ok lgArith) := by
  have hw1 : sampleTopP id 1 1 lgTopP = .ok lgTopP := by
    norm_num [sampleTopP, lgTopP, Logits.ensure_softmax, topPScan]
  have hw2 : sampleTailFree id (1/2) 1 lgArith = .ok lgArith := by
    norm_num [sampleTailFree, lgArith, Logits.ensure_softmax, sderivsLoop, pairDiffs,
      pairAbsDiffs, fdiv, tfScan, FVal.add, FVal.gtq, Logits.truncate]
  exact ⟨⟨hw1, hw2⟩,
    second_apply_noop_when_first_kept_all id id 1 (1/2) 1 1 lgTopP lgArith lgTopP lgArith
      hw1 rfl hw2 rfl⟩
